import Mathlib

/-!
Verification of the letter-frequency, pool-cubing, random-string and
bag-grouping notebooks of this repository, shallowly embedded in Lean.
Texts are lists of characters; a Python Counter over characters is embedded
extensionally as its total count function of type Char → Nat (a missing key
reads as count 0, exactly as Counter lookup does); a Python dict built by
insertion is embedded as an association list in insertion order.
-/

namespace TOBD

/-- Python str.lower modelled on the alphabets the notebooks use: ASCII
letters, the Cyrillic range А..Я (shift by 0x20, as in cp1251 and Unicode)
and Ё ↦ ё; every other character is left unchanged. -/
def lowerChar (c : Char) : Char :=
  if 'A' ≤ c ∧ c ≤ 'Z' then Char.ofNat (c.toNat + 32)
  else if 'А' ≤ c ∧ c ≤ 'Я' then Char.ofNat (c.toNat + 32)
  else if c = 'Ё' then 'ё' else c

/-- Python text.lower() over a text given as its list of characters. -/
def lower (s : List Char) : List Char := s.map lowerChar

/-- A Python Counter with non-negative counts, extensionally: the total
count function. -/
def PyCounter := Char → Nat

/-- The empty Counter. -/
def czero : PyCounter := fun _ => 0

/-- Counter addition (Counter.__add__) restricted to counters with
non-negative counts: pointwise addition of the count functions. -/
def cadd (f g : PyCounter) : PyCounter := fun c => f c + g c

/-- Counter(iterable): each character mapped to its number of occurrences. -/
def counterOf (l : List Char) : PyCounter := fun c => l.count c

/-- functools.reduce(operator.add, l) over a list of Counters, as the
notebooks merge partial tallies; on non-negative counters this equals the
fold of cadd from the empty Counter. -/
def reduceAdd (l : List PyCounter) : PyCounter := l.foldl cadd czero

/-- Membership in the set rus_symb = set(chr(c) for c in range(ord(а),
ord(я) + 1)) of the Panov notebook, which is also exactly the character
class of the regex [а-я] of the unnamed notebook: the contiguous Unicode
range U+0430..U+044F.  Note that ё (U+0451) is outside this range. -/
def inRus (c : Char) : Bool := 'а' ≤ c && c ≤ 'я'

/-- Membership in rus_symb = set(chr(c) for c in range(ord(а), ord(я))) of
the Golyshkov count_letters: upper bound exclusive, so я is left out. -/
def inRusG (c : Char) : Bool := 'а' ≤ c && c < 'я'

/-- count_letters2 of the Panov notebook: lowercase the text line by line,
keep the characters in rus_symb and count them with Counter.  Line
structure is irrelevant to the final tally, so the text is a flat list. -/

def count_letters2 (text : List Char) : PyCounter :=
  counterOf ((lower text).filter inRus)

/-- counting of counter.py in tasks 3, 4 and 5 of the Panov notebook: the
per-file worker body, identical to count_letters2 (open the file, lower
each line, keep rus characters, Counter). -/
def countingFile (text : List Char) : PyCounter :=
  counterOf ((lower text).filter inRus)

/-- counting(slices) of task 6 of the Panov notebook: the intra-file worker;
it does not lowercase (the driver lowers the whole file once before
slicing), it filters on rus and counts. -/
def counting (slices : List Char) : PyCounter :=
  counterOf (slices.filter inRus)

/-- Lookup of a key in a dict embedded as an association list in insertion
order: the Python expressions char in chars and chars.get(char). -/
def dlookup {K : Type} [DecidableEq K] (a : K) : List (K × Nat) → Option Nat
  | [] => none
  | (k, v) :: rest => if a = k then some v else dlookup a rest

/-- One update of the chars dict of count_chars_in_book: if char is already
a key, add one to its value; otherwise insert it with value 0 (the
notebook writes chars[char] = 0 for a first occurrence). -/
def dictBump (d : List (Char × Nat)) (c : Char) : List (Char × Nat) :=
  if (dlookup c d).isSome then
    d.map (fun p => if p.1 = c then (p.1, p.2 + 1) else p)
  else d ++ [(c, 0)]

/-- count_chars_in_book of the unnamed notebook (the regex variant, cells 1
and 2): walk the lowercased text and update the dict at every character
matching re.match(r-bracket-а-я-bracket). -/
def count_chars_in_book (text : List Char) : List (Char × Nat) :=
  (lower text).foldl (fun d c => if inRus c then dictBump d c else d) []

/-- Value a dict read as a Counter assigns to a character: the stored value
when the character is a key, otherwise 0. -/
def counterOfDict (d : List (Char × Nat)) : PyCounter :=
  fun c => (dlookup c d).getD 0

/-- The sequential count_in_dir of the unnamed notebook: fold Counter
addition of the per-file dicts over the files of the directory, starting
from the empty Counter.  A directory is modelled as the list of the texts
of its files. -/
def count_in_dir (files : List (List Char)) : PyCounter :=
  files.foldl (fun total f => cadd total (counterOfDict (count_chars_in_book f))) czero

/-- Membership in alphabet = set(абвгдеёжзийклмнопрстуфхцчшщъыьэюя) of the
counters.py variant of the unnamed notebook: the rus range plus ё. -/
def inAlphabetSet (c : Char) : Bool := inRus c || c = 'ё'

/-- count_chars_in_book of counters.py in the unnamed notebook (the
set-alphabet variant the pool version maps over the files). -/
def count_chars_in_book_set (text : List Char) : List (Char × Nat) :=
  (lower text).foldl (fun d c => if inAlphabetSet c then dictBump d c else d) []

/-- The pool-based count_in_dir of the unnamed notebook: pool.map of
counters.count_chars_in_book over the files; the merging lines are
commented out in the source and the function returns the raw list
chars_in_file of per-file dicts. -/
def count_in_dir_pool (files : List (List Char)) : List (List (Char × Nat)) :=
  files.map count_chars_in_book_set

/-- The task 4 driver of the Panov notebook: the workers push one partial
tally per file onto the output queue (arrival is the queue content in
arrival order, a permutation of the per-file tallies), and the driver
merges the list comprehension of output.get() for p in processes, that is
the first cpu arrivals only. -/
def queue_driver (cpu : Nat) (arrival : List PyCounter) : PyCounter :=
  reduceAdd (arrival.take cpu)

/-- The task 2 sequential reference of the Panov notebook: reduce with
operator.add over the per-file tallies in directory order. -/
def seq_total (files : List (List Char)) : PyCounter :=
  reduceAdd (files.map countingFile)

/-- cube of cube_.py in the Golyshkov notebook. -/
def cube (x : Int) : Int := x ^ 3

/-- Modelled from the spec: multiprocessing.Pool.map, a library primitive
not part of this repository; it applies the function to each element and
returns the results in the order of the inputs. -/
def pool_map (f : Int → Int) (xs : List Int) : List Int := xs.map f

/-- Modelled from the spec: a Pool.apply_async handle; get() returns the
return value of the submitted call once finished. -/
structure AsyncResult where
  value : Int

/-- Modelled from the spec: pool.apply_async(f, args=(x,)) submits the call
and returns its handle. -/
def apply_async (f : Int → Int) (x : Int) : AsyncResult := ⟨f x⟩

/-- The fire-and-collect submission style of the Golyshkov notebook:
submit apply_async for each x, then get() on each handle in submission
order. -/
def fire_and_collect (f : Int → Int) (xs : List Int) : List Int :=
  (xs.map (apply_async f)).map AsyncResult.value

/-- count_letters (the cp1251 variant) of the Golyshkov notebook: the
generator expression yields the undefined Cyrillic identifier с instead of
the loop variable c, so a NameError is raised at the first character that
passes the rus_symb filter; when no character of the lowercased text
passes, the generator never yields and the empty Counter is returned. -/
def count_letters_g (text : List Char) : Except String PyCounter :=
  match (lower text).find? inRusG with
  | some _ => Except.error "NameError"
  | none => Except.ok czero

/-- The contiguous slices file[b*i : b*(i+1)] for i in range(p) that task 6
of the Panov notebook distributes over the pool workers. -/
def slices (s : List Char) (b p : Nat) : List (List Char) :=
  (List.range p).map (fun i => (s.drop (b * i)).take b)

/-- The merged total of the chunked pool driver of task 6: b = len(file)
floor-divided by the cpu count p, one counting call per slice, merged by
reduce with operator.add. -/
def chunked_total (s : List Char) (p : Nat) : PyCounter :=
  reduceAdd ((slices s (s.length / p) p).map counting)

/-- Python tuple comparison on the tagged results (position, string): first
by position, ties broken by the string, as results.sort() compares them. -/
def pairLe (a b : Nat × String) : Prop :=
  a.1 < b.1 ∨ (a.1 = b.1 ∧ a.2 ≤ b.2)

instance : DecidableRel pairLe := fun _ _ =>
  inferInstanceAs (Decidable (_ ∨ _))

instance : IsTotal (Nat × String) pairLe where
  total a b := by
    rcases Nat.lt_trichotomy a.1 b.1 with h | h | h
    · exact Or.inl (Or.inl h)
    · rcases le_total a.2 b.2 with hs | hs
      · exact Or.inl (Or.inr ⟨h, hs⟩)
      · exact Or.inr (Or.inr ⟨h.symm, hs⟩)
    · exact Or.inr (Or.inl h)

instance : IsTrans (Nat × String) pairLe where
  trans a b c hab hbc := by
    rcases hab with h1 | ⟨h1, s1⟩ <;> rcases hbc with h2 | ⟨h2, s2⟩
    · exact Or.inl (h1.trans h2)
    · exact Or.inl (h2 ▸ h1)
    · exact Or.inl (h1 ▸ h2)
    · exact Or.inr ⟨h1.trans h2, s1.trans s2⟩

instance : IsAntisymm (Nat × String) pairLe where
  antisymm a b hab hba := by
    rcases hab with h1 | ⟨h1, s1⟩
    · rcases hba with h2 | ⟨h2, s2⟩
      · exact absurd (h1.trans h2) (lt_irrefl _)
      · exact absurd h1 (by rw [h2]; exact lt_irrefl _)
    · rcases hba with h2 | ⟨h2, s2⟩
      · exact absurd h2 (by rw [h1]; exact lt_irrefl _)
      · exact Prod.ext h1 (le_antisymm s1 s2)

/-- The tagged results the N worker processes put on the shared output
queue: the worker given position i puts the pair (i, its generated
string); f i stands for the string worker i generated. -/
def tagged_results (n : Nat) (f : Nat → String) : List (Nat × String) :=
  (List.range n).map (fun i => (i, f i))

/-- results.sort() followed by the projection of the string component, as
the notebook restores generation order; any correct sort of pairs under
the total antisymmetric pairLe yields the same sorted list, so insertion
sort stands in for the library sort. -/
def sort_and_project (l : List (Nat × String)) : List String :=
  (List.insertionSort pairLe l).map Prod.snd

/-- The binop of the foldby name-count cell: incr(tot, _) = tot + 1. -/
def incr {α : Type} (tot : Nat) (_ : α) : Nat := tot + 1

/-- The distinct keys of a list of records under a key function, in
occurrence order; a record is any value with a name field, modelled as a
key function on an abstract record type. -/
def keysOf {α K : Type} [DecidableEq K] (key : α → K) (l : List α) : List K :=
  (l.map key).dedup

/-- Modelled from the spec: dask.bag groupby, the full-shuffle grouping (a
library primitive, not code of this repository): all records of the bag
with the same key are collected together into one key-group pair. -/
def bag_groupby {α K : Type} [DecidableEq K] (key : α → K) (parts : List (List α)) :
    List (K × List α) :=
  (keysOf key parts.flatten).map
    (fun k => (k, parts.flatten.filter (fun x => key x = k)))

/-- The groupby name-count cell: groupby on the name followed by starmap of
(k, v) to (k, len(v)). -/
def groupby_name_count {α K : Type} [DecidableEq K] (key : α → K)
    (parts : List (List α)) : List (K × Nat) :=
  (bag_groupby key parts).map (fun g => (g.1, g.2.length))

/-- Modelled from the spec: the per-partition reduce of foldby with binop
incr from initial 0: each key of the partition mapped to the fold of incr
over the records of the partition holding that key. -/
def reduceby {α K : Type} [DecidableEq K] (key : α → K) (part : List α) :
    List (K × Nat) :=
  (keysOf key part).map
    (fun k => (k, (part.filter (fun x => key x = k)).foldl incr 0))

/-- Modelled from the spec: dask.bag foldby with key name, binop incr,
initial 0, combine add and combine_initial 0 (the streaming combine-reduce
grouping, a library primitive): the per-partition reduceby tables are
merged per key by folding the combine operator add from combine_initial
over the values the partitions hold for that key. -/
def foldby_name_count {α K : Type} [DecidableEq K] (key : α → K)
    (parts : List (List α)) : List (K × Nat) :=
  ((parts.map (reduceby key)).flatten.map Prod.fst).dedup.map
    (fun k =>
      (k, ((parts.map (reduceby key)).filterMap (fun d => dlookup k d)).foldl
            (fun a b => a + b) 0))

/-- State of the task 4 system: the shared task queue (front first) and the
number of worker processes still inside their while-True loop.  A job is
some file text or the None sentinel. -/
structure QState where
  queue : List (Option (List Char))
  running : Nat

/-- One queue.get() by some still-running worker, as the counting loop of
counter.py performs it: a file job is processed and the worker loops
again; the None sentinel makes the worker break out of its loop. -/
inductive QStep : QState → QState → Prop
  | job : ∀ (f : List Char) (rest : List (Option (List Char))) (r : Nat),
      0 < r → QStep ⟨some f :: rest, r⟩ ⟨rest, r⟩
  | sentinel : ∀ (rest : List (Option (List Char))) (r : Nat),
      0 < r → QStep ⟨none :: rest, r⟩ ⟨rest, r - 1⟩

/-- The pre-loaded task queue of the task 4 driver: every file name,
followed by exactly one None sentinel per worker. -/
def preload (files : List (List Char)) (cpu : Nat) : List (Option (List Char)) :=
  files.map some ++ List.replicate cpu none

/-- The initial state: the pre-loaded queue and all cpu workers running. -/
def qinit (files : List (List Char)) (cpu : Nat) : QState :=
  ⟨preload files cpu, cpu⟩

/-- The invariant behind termination: the queue always holds at least one
None sentinel per still-running worker, so no worker ever blocks on an
empty queue. -/
def QInv (s : QState) : Prop :=
  s.running ≤ s.queue.countP (fun o => o.isNone)

end TOBD

namespace TOBD

theorem cadd_assoc (x y z : PyCounter) : cadd (cadd x y) z = cadd x (cadd y z) := by
  funext c
  simp [cadd, Nat.add_assoc]

theorem cadd_comm (x y : PyCounter) : cadd x y = cadd y x := by
  funext c
  simp [cadd, Nat.add_comm]

theorem cadd_czero (x : PyCounter) : cadd czero x = x := by
  funext c
  simp [cadd, czero]

theorem cadd_czero_right (x : PyCounter) : cadd x czero = x := by
  funext c
  simp [cadd, czero]

theorem counting_nil : counting [] = czero := by
  funext c
  rfl

theorem counting_append (l₁ l₂ : List Char) :
    counting (l₁ ++ l₂) = cadd (counting l₁) (counting l₂) := by
  funext c
  simp [counting, counterOf, cadd, List.filter_append]

theorem foldl_cadd_perm {l₁ l₂ : List PyCounter} (h : l₁.Perm l₂) :
    ∀ a : PyCounter, l₁.foldl cadd a = l₂.foldl cadd a := by
  induction h with
  | nil => intro a; rfl
  | cons x _ ih => intro a; simpa using ih (cadd a x)
  | swap x y l =>
      intro a
      have : cadd (cadd a y) x = cadd (cadd a x) y := by
        rw [cadd_assoc, cadd_assoc, cadd_comm x y]
      simp [this]
  | trans _ _ ih₁ ih₂ => intro a; rw [ih₁ a, ih₂ a]

theorem foldl_cadd_map_counting (L : List (List Char)) :
    ∀ a : PyCounter, (L.map counting).foldl cadd a = cadd a (counting L.flatten) := by
  induction L with
  | nil => intro a; simp [counting_nil, cadd_czero_right]
  | cons x rest ih =>
      intro a
      simp only [List.map_cons, List.foldl_cons, List.flatten_cons, ih, counting_append]
      rw [cadd_assoc]

theorem reduceAdd_map_counting (L : List (List Char)) :
    reduceAdd (L.map counting) = counting L.flatten := by
  rw [reduceAdd, foldl_cadd_map_counting, cadd_czero]

theorem flatten_slices (s : List Char) (b : Nat) :
    ∀ p : Nat, (slices s b p).flatten = s.take (b * p) := by
  intro p
  induction p with
  | zero => simp [slices]
  | succ p ih =>
      rw [slices, List.range_succ, List.map_append, List.flatten_append]
      rw [slices] at ih
      rw [ih, Nat.mul_succ, List.take_add]
      simp

/-- C9: Counter addition as used to merge partial tallies is associative and
commutative on non-negative tallies, and therefore the merged total of a
collection of partial tallies does not depend on the retrieval order: any
permutation of the list of partial tallies reduces to the same total. -/
theorem merge_total_order_independent :
    (∀ x y z : PyCounter, cadd (cadd x y) z = cadd x (cadd y z)) ∧
    (∀ x y : PyCounter, cadd x y = cadd y x) ∧
    (∀ l₁ l₂ : List PyCounter, l₁.Perm l₂ → reduceAdd l₁ = reduceAdd l₂) :=
  ⟨cadd_assoc, cadd_comm, fun _ _ h => foldl_cadd_perm h czero⟩

/-- C9 witness: merging two concrete partial tallies in either retrieval
order yields the same total. -/
theorem merge_total_order_independent_witness :
    reduceAdd [countingFile ['а'], counterOf ['б']] =
      reduceAdd [counterOf ['б'], countingFile ['а']] :=
  merge_total_order_independent.2.2 _ _ (List.Perm.swap _ _ _)

/-- C7: both pool submission styles cube correctly: Pool.map of cube over a
list of integers, and apply_async of cube per element followed by get on
each handle in submission order, both return exactly the cubes in input
order. -/
theorem pool_cube_both_styles (xs : List Int) :
    pool_map cube xs = xs.map (fun x => x ^ 3) ∧
    fire_and_collect cube xs = xs.map (fun x => x ^ 3) := by
  constructor
  · rfl
  · simp [fire_and_collect, apply_async, cube]

/-- C2: count_chars_in_book is claimed to map every occurring Cyrillic
character to exactly its occurrence count, but the dict update inserts a
first occurrence with value 0, so a character occurring once is recorded
with count 0: the code diverges from the documented frequency-table
contract at the one-character file а. -/
theorem count_chars_in_book_off_by_one :
    (['а'].count 'а' = 1) ∧
    (dlookup 'а' (count_chars_in_book ['а']) = some 0) := by
  constructor
  · rfl
  · rfl

/-- C1: evaluation of the two merge bugs.  With two files both holding the
single character а and one worker, the task 4 queue driver (which merges
one output.get() per worker process, not per file) totals а at 1 while the
sequential reference totals it at 2; and the pool-based count_in_dir
returns the unmerged singleton list of per-file dicts instead of a merged
total. -/
theorem queue_driver_and_pool_merge_bug :
    (queue_driver 1 ([['а'], ['а']].map countingFile) 'а' = 1) ∧
    (seq_total [['а'], ['а']] 'а' = 2) ∧
    (count_in_dir_pool [['а']] = [[('а', 0)]]) := by
  refine ⟨rfl, rfl, rfl⟩

/-- C3 counterexample: with the three-character text ааа and two workers,
b = 1, the two slices hold one а each, so the merged chunked total counts
а twice while counting the whole text counts it three times: the slicing
drops the remainder of length len mod p. -/
theorem chunked_total_drops_remainder :
    (1 ≤ 2) ∧
    chunked_total ['а', 'а', 'а'] 2 'а' = 2 ∧
    counting ['а', 'а', 'а'] 'а' = 3 := by
  refine ⟨by decide, rfl, rfl⟩

/-- C3 amended: for every text s and worker count p ≥ 1, the pairwise
Counter sum over the p contiguous slices equals counting applied to the
prefix of s of length b*p (b = len(s) floor-divided by p), the part the
slices cover; in particular it equals counting applied to the whole of s
whenever p divides len(s). -/
theorem chunked_total_covers_prefix (s : List Char) (p : Nat) (_hp : 1 ≤ p) :
    chunked_total s p = counting (s.take (s.length / p * p)) ∧
    (p ∣ s.length → chunked_total s p = counting s) := by
  have hmain : chunked_total s p = counting (s.take (s.length / p * p)) := by
    rw [chunked_total, reduceAdd_map_counting, flatten_slices]
  refine ⟨hmain, fun hdvd => ?_⟩
  rw [hmain, Nat.div_mul_cancel hdvd, List.take_length]

/-- C3 witness: with the two-character text аб and two workers the slice
totals equal the full count. -/
theorem chunked_total_covers_prefix_witness :
    chunked_total ['а', 'б'] 2 = counting (['а', 'б'].take (['а', 'б'].length / 2 * 2)) ∧
    (2 ∣ ['а', 'б'].length → chunked_total ['а', 'б'] 2 = counting ['а', 'б']) :=
  chunked_total_covers_prefix ['а', 'б'] 2 (by decide)

theorem lookup_map_bump (d : List (Char × Nat)) (c a : Char) :
    (dlookup a (d.map (fun p => if p.1 = c then (p.1, p.2 + 1) else p))).isSome =
      (dlookup a d).isSome := by
  induction d with
  | nil => rfl
  | cons p rest ih =>
      obtain ⟨k, v⟩ := p
      simp only [List.map_cons]
      by_cases hp : k = c
      · rw [if_pos hp]
        simp only [dlookup]
        by_cases ha : a = k <;> simp [ha, ih]
      · rw [if_neg hp]
        simp only [dlookup]
        by_cases ha : a = k <;> simp [ha, ih]

theorem lookup_append_single_isSome (d : List (Char × Nat)) (c a : Char) :
    (dlookup a (d ++ [(c, 0)])).isSome = true ↔
      ((dlookup a d).isSome = true ∨ a = c) := by
  induction d with
  | nil => by_cases ha : a = c <;> simp [dlookup, ha]
  | cons p rest ih =>
      obtain ⟨k, v⟩ := p
      by_cases ha : a = k <;> simp [dlookup, ha, ih]

theorem lookup_dictBump_isSome (d : List (Char × Nat)) (c a : Char)
    (h : (dlookup a d).isSome = true ∨ a = c) :
    (dlookup a (dictBump d c)).isSome = true := by
  rw [dictBump]
  by_cases hc : (dlookup c d).isSome = true
  · rw [if_pos hc, lookup_map_bump]
    rcases h with h | h
    · exact h
    · rw [h]; exact hc
  · rw [if_neg hc]
    exact (lookup_append_single_isSome d c a).mpr h

theorem count_chars_fold_mem_key (filt : Char → Bool) (text : List Char) (a : Char) :
    ∀ d : List (Char × Nat),
      ((dlookup a d).isSome = true ∨ (a ∈ text ∧ filt a = true)) →
      ((dlookup a (text.foldl (fun d c => if filt c then dictBump d c else d) d)).isSome
        = true) := by
  induction text with
  | nil =>
      intro d h
      rcases h with h | h
      · exact h
      · simp at h
  | cons x rest ih =>
      intro d h
      rw [List.foldl_cons]
      apply ih
      rcases h with h | ⟨hmem, hfa⟩
      · left
        by_cases hx : filt x = true
        · rw [if_pos hx]
          exact lookup_dictBump_isSome d x a (Or.inl h)
        · rw [if_neg hx]; exact h
      · rcases List.mem_cons.mp hmem with hax | harest
        · left
          subst hax
          rw [if_pos hfa]
          exact lookup_dictBump_isSome d a a (Or.inr rfl)
        · right; exact ⟨harest, hfa⟩

/-- C4 counterexample: the letter ё occurs in the lowercased one-character
text ё, yet it is a key of none of the letter-counting results: the
set-based count_letters2 counts it 0 times, the regex-based
count_chars_in_book has no key for it, and the range-based Golyshkov
count_letters returns the empty table (its range excludes ё, so the broken
generator is never forced). -/
theorem letter_tables_miss_yo :
    ('ё' ∈ lower ['ё']) ∧
    count_letters2 ['ё'] 'ё' = 0 ∧
    dlookup 'ё' (count_chars_in_book ['ё']) = none ∧
    count_letters_g ['ё'] = Except.ok czero := by
  refine ⟨by decide, rfl, rfl, rfl⟩

/-- C4 amended: every letter of the contiguous range а..я (which excludes
ё: all three filters reject ё, and the crashing Golyshkov variant is
settled separately under C5) that occurs in the lowercased text is counted
positively by count_letters2 and appears as a key of the dict returned by
count_chars_in_book. -/
theorem occurring_letter_is_key (text : List Char) (c : Char)
    (hc : c ∈ lower text) (h1 : 'а' ≤ c) (h2 : c ≤ 'я') :
    0 < count_letters2 text c ∧
    (dlookup c (count_chars_in_book text)).isSome = true := by
  have hrus : inRus c = true := by
    simp [inRus, h1, h2]
  constructor
  · rw [count_letters2, counterOf]
    exact List.count_pos_iff.mpr (List.mem_filter.mpr ⟨hc, hrus⟩)
  · rw [count_chars_in_book]
    exact count_chars_fold_mem_key inRus (lower text) c [] (Or.inr ⟨hc, hrus⟩)

/-- C4 witness: the letter а occurring in the one-character text а is
counted positively and is a key of the dict. -/
theorem occurring_letter_is_key_witness :
    0 < count_letters2 ['а'] 'а' ∧
    (dlookup 'а' (count_chars_in_book ['а'])).isSome = true :=
  occurring_letter_is_key ['а'] 'а' (by decide) (by decide) (by decide)

/-- C5 counterexample: on the empty file the Golyshkov count_letters does
not raise: no character passes the rus_symb filter, the broken generator
is never forced to yield the undefined identifier, and the empty frequency
table is returned, contradicting the claim that it raises on every input
file and never returns a table. -/
theorem count_letters_g_returns_on_empty :
    count_letters_g [] = Except.ok czero := rfl

/-- C5 amended: the Golyshkov count_letters raises the undefined-name error
on every input file whose lowercased text contains at least one character
of its rus_symb range (а inclusive to я exclusive), and returns the empty
frequency table on every other input file. -/
theorem count_letters_g_raises_iff (text : List Char) :
    ((lower text).any inRusG = true →
      count_letters_g text = Except.error "NameError") ∧
    ((lower text).any inRusG = false →
      count_letters_g text = Except.ok czero) := by
  constructor
  · intro h
    rcases hf : (lower text).find? inRusG with _ | x
    · rw [List.find?_eq_none] at hf
      rw [List.any_eq_true] at h
      obtain ⟨x, hx, hpx⟩ := h
      exact absurd hpx (by simpa using hf x hx)
    · simp [count_letters_g, hf]
  · intro h
    rcases hf : (lower text).find? inRusG with _ | x
    · simp [count_letters_g, hf]
    · have hx := List.find?_some hf
      have hmem := List.mem_of_find?_eq_some hf
      rw [List.any_eq_false] at h
      exact absurd hx (by simpa using h x hmem)

/-- C5 witness: the one-character file а makes the broken generator yield
and the error is raised; the theorem applied at that file. -/
theorem count_letters_g_raises_iff_witness :
    ((lower ['а']).any inRusG = true →
      count_letters_g ['а'] = Except.error "NameError") ∧
    ((lower ['а']).any inRusG = false →
      count_letters_g ['а'] = Except.ok czero) :=
  count_letters_g_raises_iff ['а']

theorem sorted_tagged (n : Nat) (f : Nat → String) :
    List.Sorted pairLe (tagged_results n f) := by
  rw [tagged_results]
  refine List.pairwise_map.mpr ?_
  exact (List.pairwise_lt_range n).imp (fun h => Or.inl h)

/-- C8: attaching a position tag and sorting restores generation order: for
every worker count n and every arrival permutation l of the tagged pairs
(i, f i), sorting the collected pairs and projecting the string component
yields the strings in the order of the position argument, independently of
the arrival permutation. -/
theorem sort_restores_generation_order (n : Nat) (f : Nat → String)
    (l : List (Nat × String)) (hl : l.Perm (tagged_results n f)) :
    sort_and_project l = (List.range n).map f := by
  have hs : List.insertionSort pairLe l = tagged_results n f :=
    List.eq_of_perm_of_sorted ((List.perm_insertionSort pairLe l).trans hl)
      (List.sorted_insertionSort pairLe l) (sorted_tagged n f)
  rw [sort_and_project, hs, tagged_results, List.map_map]
  rfl

/-- C8 witness: two workers arriving in swapped order still restore the
generation order after sorting and projecting. -/
theorem sort_restores_generation_order_witness :
    sort_and_project [(1, "x"), (0, "w")] =
      (List.range 2).map (fun i => if i = 0 then "w" else "x") :=
  sort_restores_generation_order 2 (fun i => if i = 0 then "w" else "x")
    [(1, "x"), (0, "w")] (by decide)

theorem foldl_incr {α : Type} (l : List α) : ∀ n : Nat, l.foldl incr n = n + l.length := by
  induction l with
  | nil => intro n; simp
  | cons x rest ih =>
      intro n
      rw [List.foldl_cons, ih]
      simp [incr]
      omega

theorem dlookup_map_key {K : Type} [DecidableEq K] (l : List K) (g : K → Nat) (k : K) :
    dlookup k (l.map (fun x => (x, g x))) = if k ∈ l then some (g k) else none := by
  induction l with
  | nil => simp [dlookup]
  | cons x rest ih =>
      by_cases hk : k = x
      · subst hk
        simp [dlookup]
      · simp [dlookup, hk, ih]

theorem mem_map_pair {K : Type} (keys : List K) (g : K → Nat) (pr : K × Nat) :
    pr ∈ keys.map (fun k => (k, g k)) ↔ pr.1 ∈ keys ∧ pr.2 = g pr.1 := by
  obtain ⟨a, b⟩ := pr
  simp only [List.mem_map, Prod.ext_iff]
  constructor
  · rintro ⟨k, hk, h1, h2⟩
    subst h1
    exact ⟨hk, h2.symm⟩
  · rintro ⟨ha, hb⟩
    exact ⟨a, ha, rfl, hb.symm⟩

theorem mem_keysOf {α K : Type} [DecidableEq K] (key : α → K) (l : List α) (k : K) :
    k ∈ keysOf key l ↔ ∃ x ∈ l, key x = k := by
  simp [keysOf, List.mem_dedup, List.mem_map]

theorem combine_counts {α K : Type} [DecidableEq K] (key : α → K) (k : K) :
    ∀ (parts : List (List α)) (n : Nat),
      ((parts.map (reduceby key)).filterMap (fun d => dlookup k d)).foldl
          (fun a b => a + b) n
        = n + (parts.flatten.filter (fun x => key x = k)).length := by
  intro parts
  induction parts with
  | nil => intro n; simp
  | cons part rest ih =>
      intro n
      rw [List.map_cons, List.filterMap_cons]
      have hl : dlookup k (reduceby key part) =
          if k ∈ keysOf key part then
            some ((part.filter (fun x => key x = k)).foldl incr 0) else none := by
        rw [reduceby, dlookup_map_key]
      by_cases hk : k ∈ keysOf key part
      · rw [hl, if_pos hk]
        rw [List.foldl_cons, ih]
        rw [foldl_incr]
        simp [List.filter_append]
        omega
      · rw [hl, if_neg hk]
        rw [ih]
        have hempty : part.filter (fun x => decide (key x = k)) = [] := by
          rw [List.filter_eq_nil_iff]
          intro x hx
          simp only [decide_eq_true_eq]
          intro hkey
          exact hk ((mem_keysOf key part k).mpr ⟨x, hx, hkey⟩)
        simp [List.filter_append, hempty]

theorem foldby_keys_mem {α K : Type} [DecidableEq K] (key : α → K)
    (parts : List (List α)) (k : K) :
    k ∈ ((parts.map (reduceby key)).flatten.map Prod.fst).dedup ↔
      ∃ x ∈ parts.flatten, key x = k := by
  rw [List.mem_dedup, List.mem_map]
  constructor
  · rintro ⟨pr, hpr, hfst⟩
    rw [List.mem_flatten] at hpr
    obtain ⟨d, hd, hprd⟩ := hpr
    rw [List.mem_map] at hd
    obtain ⟨part, hpart, hdpart⟩ := hd
    subst hdpart
    rw [reduceby] at hprd
    rw [mem_map_pair] at hprd
    obtain ⟨hk1, _⟩ := hprd
    rw [mem_keysOf] at hk1
    obtain ⟨x, hx, hkey⟩ := hk1
    exact ⟨x, List.mem_flatten.mpr ⟨part, hpart, hx⟩, by rw [hfst] at hkey; exact hkey⟩
  · rintro ⟨x, hx, hkey⟩
    rw [List.mem_flatten] at hx
    obtain ⟨part, hpart, hxpart⟩ := hx
    refine ⟨(k, (part.filter (fun x => key x = k)).foldl incr 0), ?_, rfl⟩
    rw [List.mem_flatten]
    refine ⟨reduceby key part, List.mem_map.mpr ⟨part, hpart, rfl⟩, ?_⟩
    rw [reduceby, mem_map_pair]
    exact ⟨(mem_keysOf key part k).mpr ⟨x, hxpart, hkey⟩, rfl⟩

/-- C6: the shuffle-based grouping and the streaming combine-reduce
grouping agree: for every bag of records with a name field (a key
function on an abstract record type) and every partitioning of the bag,
groupby on the name followed by mapping each group to its length produces
the same set of name-count pairs as foldby with binop incr from initial 0
combined by add from combine_initial 0. -/
theorem groupby_foldby_agree {α K : Type} [DecidableEq K] (key : α → K)
    (parts : List (List α)) (pr : K × Nat) :
    pr ∈ groupby_name_count key parts ↔ pr ∈ foldby_name_count key parts := by
  rw [groupby_name_count, bag_groupby, foldby_name_count, List.map_map]
  have hmap : ((fun g : K × List α => (g.1, g.2.length)) ∘
      fun k => (k, parts.flatten.filter (fun x => key x = k))) =
      fun k => (k, (parts.flatten.filter (fun x => key x = k)).length) := rfl
  rw [hmap, mem_map_pair, mem_map_pair, mem_keysOf, foldby_keys_mem, combine_counts]
  simp

/-- C6 witness: the concrete bag with two partitions, records keyed by
themselves, yields the pair (1, 2) under both groupings. -/
theorem groupby_foldby_agree_witness :
    (1, 2) ∈ foldby_name_count (fun x : Nat => x) [[1, 1], [2]] :=
  (groupby_foldby_agree (fun x : Nat => x) [[1, 1], [2]] (1, 2)).mp (by decide)

theorem countP_preload (files : List (List Char)) (cpu : Nat) :
    (preload files cpu).countP (fun o => o.isNone) = cpu := by
  rw [preload, List.countP_append]
  have h1 : (files.map some).countP (fun o => o.isNone) = 0 := by
    rw [List.countP_eq_zero]
    intro o ho
    rw [List.mem_map] at ho
    obtain ⟨f, _, hfo⟩ := ho
    subst hfo
    simp
  have h2 : (List.replicate cpu (none : Option (List Char))).countP
      (fun o => o.isNone) = cpu := by
    induction cpu with
    | zero => rfl
    | succ n ih => rw [List.replicate_succ, List.countP_cons]; simp [ih]
  rw [h1, h2]
  omega

/-- C10: every queue-consuming worker terminates.  The pre-loaded queue
holds exactly one None sentinel per worker; the sentinel invariant (at
least one None per running worker) holds initially and is preserved by
every step; under the invariant a running worker can always perform its
next queue.get() (no worker blocks on an empty queue); and every step
strictly shrinks the finite queue, so no infinite run exists: each of the
cpu workers reads finitely many jobs and exits its loop at its None. -/
theorem queue_workers_terminate (files : List (List Char)) (cpu : Nat) :
    ((preload files cpu).countP (fun o => o.isNone) = cpu) ∧
    QInv (qinit files cpu) ∧
    (∀ s t : QState, QStep s t → QInv s → QInv t) ∧
    (∀ s : QState, QInv s → 0 < s.running → ∃ t : QState, QStep s t) ∧
    (∀ s t : QState, QStep s t → t.queue.length < s.queue.length) := by
  refine ⟨countP_preload files cpu, ?_, ?_, ?_, ?_⟩
  · rw [QInv, qinit, countP_preload]
  · intro s t hst hinv
    cases hst with
    | job f rest r hr =>
        rw [QInv] at hinv ⊢
        have hc : (some f :: rest).countP (fun o => o.isNone) =
            rest.countP (fun o => o.isNone) := by simp
        rw [hc] at hinv
        exact hinv
    | sentinel rest r hr =>
        rw [QInv] at hinv ⊢
        dsimp only at hinv ⊢
        have hc : ((none : Option (List Char)) :: rest).countP (fun o => o.isNone) =
            rest.countP (fun o => o.isNone) + 1 := by simp
        rw [hc] at hinv
        omega
  · intro s hinv hrun
    obtain ⟨queue, r⟩ := s
    rw [QInv] at hinv
    simp only at hinv hrun
    cases queue with
    | nil => simp at hinv; omega
    | cons o rest =>
        cases o with
        | none => exact ⟨⟨rest, r - 1⟩, QStep.sentinel rest r hrun⟩
        | some f => exact ⟨⟨rest, r⟩, QStep.job f rest r hrun⟩
  · intro s t hst
    cases hst with
    | job f rest r hr => simp
    | sentinel rest r hr => simp

/-- C10 witness: from the initial state with one file and one worker a
queue.get() step is possible. -/
theorem queue_workers_terminate_witness :
    ∃ t : QState, QStep (qinit [['а']] 1) t :=
  (queue_workers_terminate [['а']] 1).2.2.2.1 (qinit [['а']] 1)
    (queue_workers_terminate [['а']] 1).2.1 (by decide)

end TOBD
